import Mathlib

/-!
Verification of the chord-chart parsing core of `server/song_lookup.py`:
chord-token recognition (`CHORD_RE` / `_is_chord_token`), section-oriented
chart parsing (`parse_chord_chart`), chord simplification (`simplify_chord`),
slash-bass extraction (`extract_bass_note`) and key detection (`detect_key`).

Strings are modelled as Lean `String` / `List Char`.  Python regular
expressions are embedded as executable matchers over `List Char`; for the
boolean question "does the pattern match" a backtracking regex matches iff
some alternative path succeeds, which is what the staged nondeterministic
matchers below compute.  Note that in Python the `.` of `(.*)` does not match
a newline; the embedding of `simplify_chord` reflects this.
-/

namespace SongLookup

/-- Whitespace characters recognised by Python's `str.strip` / `str.split`
(ASCII range): space, tab, newline, carriage return, vertical tab, form feed. -/
def isPySpace (c : Char) : Bool :=
  c = ' ' || c = '\t' || c = '\n' || c = '\r' || c = '\x0B' || c = '\x0C'

/-- Root note letter `[A-G]`. -/
def isNoteLetter (c : Char) : Bool :=
  'A' ≤ c && c ≤ 'G'

/-- Accidental `[b#]`. -/
def isAccidental (c : Char) : Bool :=
  c = 'b' || c = '#'

/-- Python `s.split(sep)` for a one-character separator: splits at every
occurrence, keeping empty pieces (`"".split` gives `[""]`). -/
def splitOnChar (sep : Char) : List Char → List (List Char)
  | [] => [[]]
  | c :: rest =>
    if c = sep then [] :: splitOnChar sep rest
    else
      match splitOnChar sep rest with
      | [] => [[c]]
      | h :: t => (c :: h) :: t

/-- Worker for `pySplitWS`: accumulates the current word (reversed). -/
def wordsCore : List Char → List Char → List (List Char)
  | [], cur => if cur = [] then [] else [cur.reverse]
  | c :: rest, cur =>
    if isPySpace c then
      if cur = [] then wordsCore rest [] else cur.reverse :: wordsCore rest []
    else wordsCore rest (c :: cur)

/-- Python `line.split()` (no argument): split on whitespace runs, dropping
empty pieces. -/
def pySplitWS (s : List Char) : List (List Char) :=
  wordsCore s []

/-- Python `s.strip()`: remove leading and trailing whitespace. -/
def stripChars (l : List Char) : List Char :=
  ((l.dropWhile isPySpace).reverse.dropWhile isPySpace).reverse

/-- Consume a literal token: `dropTok pat s` is the remainder of `s` after
the prefix `pat`, when present. -/
def dropTok : List Char → List Char → Option (List Char)
  | [], rest => some rest
  | _ :: _, [] => none
  | c :: cs, d :: rest => if c = d then dropTok cs rest else none

/-- Remainders after `[A-G][b#]?` (both the one- and two-character readings
when an accidental follows, since the regex may backtrack). -/
def takeRoot : List Char → List (List Char)
  | [] => []
  | c :: rest =>
    if isNoteLetter c then
      match rest with
      | d :: rest2 => if isAccidental d then [rest2, rest] else [rest]
      | [] => [rest]
    else []

/-- Remainders after `(?:m|min|maj|dim|aug|sus)?`. -/
def qualityRems (s : List Char) : List (List Char) :=
  s :: (["m".data, "min".data, "maj".data, "dim".data, "aug".data, "sus".data].filterMap
    (fun q => dropTok q s))

/-- Remainders after consuming one or more leading digits (`\d+`), one entry
per number of digits consumed. -/
def digitRems : List Char → List (List Char)
  | [] => []
  | c :: rest => if c.isDigit then rest :: digitRems rest else []

/-- Remainders after `(?:\d+)?`. -/
def extRems (s : List Char) : List (List Char) :=
  s :: digitRems s

/-- One iteration of `[b#]\d+`. -/
def altStep (s : List Char) : List (List Char) :=
  match s with
  | a :: rest => if isAccidental a then digitRems rest else []
  | [] => []

/-- Concatenation of the images of `f` (used to chain matcher stages). -/
def catMap (f : List Char → List (List Char)) : List (List Char) → List (List Char)
  | [] => []
  | x :: xs => f x ++ catMap f xs

/-- Remainders after `(?:[b#]\d+)*`, with fuel bounding the iteration count. -/
def starRems : Nat → List Char → List (List Char)
  | 0, s => [s]
  | n + 1, s => s :: catMap (starRems n) (altStep s)

/-- Remainders after `(?:add\d+)?`. -/
def addRems (s : List Char) : List (List Char) :=
  s :: (match dropTok "add".data s with
        | some r => digitRems r
        | none => [])

/-- Remainders after `(?:/[A-G][b#]?)?`. -/
def slashRems (s : List Char) : List (List Char) :=
  s :: (match s with
        | '/' :: rest => takeRoot rest
        | _ => [])

/-- Embedding of `CHORD_RE.match(token)` as a Boolean: the anchored pattern
`^[A-G][b#]?(?:m|min|maj|dim|aug|sus)?(?:\d+)?(?:[b#]\d+)*(?:add\d+)?(?:/[A-G][b#]?)?$`
matches iff some path through the stages consumes the whole token. -/
def chordMatchL (s : List Char) : Bool :=
  let r1 := takeRoot s
  let r2 := catMap qualityRems r1
  let r3 := catMap extRems r2
  let r4 := catMap (fun t => starRems t.length t) r3
  let r5 := catMap addRems r4
  let r6 := catMap slashRems r5
  r6.any (fun t => t.isEmpty)

/-- Embedding of `_is_chord_token`: empty tokens and the repeat marker `"."`
are not chords; otherwise the token must match `CHORD_RE`. -/
def is_chord_token (t : String) : Bool :=
  if t = "" || t = "." then false else chordMatchL t.data

/-- Embedding of `_normalize_section_name`: strip, lowercase, remove a
trailing run of digits together with the whitespace right before it
(`re.sub(r'\s*\d+$', '', name)`), then replace spaces by hyphens. -/
def normalizeSectionName (raw : List Char) : String :=
  let name := (stripChars raw).map Char.toLower
  let name :=
    match name.reverse with
    | c :: _ =>
      if c.isDigit then ((name.reverse.dropWhile Char.isDigit).dropWhile isPySpace).reverse
      else name
    | [] => name
  String.mk (name.map (fun c => if c = ' ' then '-' else c))

/-- Embedding of `SECTION_RE.match(line)` (`^\[([^\]]+)\]`): a line starting
with `[`, then at least one non-`]` character, then `]`; returns the capture
group. -/
def sectionHeader (line : List Char) : Option (List Char) :=
  match line with
  | '[' :: rest =>
    let grp := rest.takeWhile (fun c => c != ']')
    if grp = [] then none
    else if rest.dropWhile (fun c => c != ']') = [] then none
    else some grp
  | _ => none

/-- One section of a parsed chart (`{"name": ..., "chords": ..., "bars": ...}`). -/
structure Section where
  name : String
  chords : List String
  bars : Nat
deriving DecidableEq

/-- The normalized SongChart dict returned by `parse_chord_chart`. -/
structure SongChart where
  title : String
  artist : String
  key : String
  bpm : Int
  time_sig : String
  sections : List Section
deriving DecidableEq

/-- Running state of the line loop of `parse_chord_chart`:
`current = none` models Python's `current_section is None`. -/
structure ParseState where
  sections : List Section
  current : Option String
  chords : List String
deriving DecidableEq

/-- Closing the open section: it is appended only when the current section
name is truthy (non-empty) and at least one chord was collected, mirroring
`if current_section and current_chords`. -/
def flushSection (st : ParseState) : List Section :=
  match st.current with
  | some name =>
    if name ≠ "" ∧ st.chords ≠ [] then
      st.sections ++ [⟨name, st.chords, st.chords.length⟩]
    else st.sections
  | none => st.sections

/-- The inner token loop of `parse_chord_chart`: `prev` models `prev_chord`
(initialised to `None` for each line), `acc` the growing `current_chords`.
A `"."` re-appends the previous chord when that is truthy; a chord token is
appended and becomes the new previous chord; other tokens are ignored. -/
def processTokens : List String → Option String → List String → List String × Option String
  | [], prev, acc => (acc, prev)
  | t :: ts, prev, acc =>
    if t = "." then
      match prev with
      | some p => if p = "" then processTokens ts prev acc else processTokens ts prev (acc ++ [p])
      | none => processTokens ts prev acc
    else if is_chord_token t then processTokens ts (some t) (acc ++ [t])
    else processTokens ts prev acc

/-- One iteration of the line loop of `parse_chord_chart`. -/
def processLine (st : ParseState) (rawLine : List Char) : ParseState :=
  let line := stripChars rawLine
  if line = [] then st
  else
    match sectionHeader line with
    | some grp =>
      { sections := flushSection st, current := some (normalizeSectionName grp), chords := [] }
    | none =>
      match st.current with
      | some _ =>
        { st with chords := (processTokens ((pySplitWS line).map String.mk) none st.chords).1 }
      | none => st

/-- Candidate keys with their chord sets, in the source's insertion order
(`KEY_WEIGHTS`); iteration order decides ties. -/
def KEY_WEIGHTS : List (String × List String) :=
  [("C", ["C", "Dm", "Em", "F", "G", "Am"]),
   ("G", ["G", "Am", "Bm", "C", "D", "Em"]),
   ("D", ["D", "Em", "F#m", "G", "A", "Bm"]),
   ("A", ["A", "Bm", "C#m", "D", "E", "F#m"]),
   ("E", ["E", "F#m", "G#m", "A", "B", "C#m"]),
   ("F", ["F", "Gm", "Am", "Bb", "C", "Dm"]),
   ("Bb", ["Bb", "Cm", "Dm", "Eb", "F", "Gm"]),
   ("Am", ["Am", "Bdim", "C", "Dm", "Em", "F", "G", "E"]),
   ("Em", ["Em", "F#dim", "G", "Am", "Bm", "C", "D", "B"]),
   ("Dm", ["Dm", "Edim", "F", "Gm", "Am", "Bb", "C", "A"])]

/-- Embedding of the reduction `re.match(r'^([A-G][b#]?m?)', c)` used by
`detect_key`: the maximal prefix consisting of a note letter, an optional
accidental and an optional `m`; `none` when the token does not start with a
note letter. -/
def detectRoot (c : String) : Option String :=
  match c.data with
  | r :: rest =>
    if isNoteLetter r then
      let p := match rest with
        | a :: rr => if isAccidental a then ([r, a], rr) else ([r], rest)
        | [] => ([r], ([] : List Char))
      match p.2 with
      | m :: _ => if m = 'm' then some (String.mk (p.1 ++ ['m'])) else some (String.mk p.1)
      | [] => some (String.mk p.1)
    else none
  | [] => none

/-- Score of one candidate key: `sum(1 for r in roots if r in scale_chords)`. -/
def keyScore (roots : List String) (scale : List String) : Nat :=
  roots.countP (fun r => decide (r ∈ scale))

/-- Embedding of `detect_key`: reduce each chord to its root, score every
candidate key, and keep the first strictly best candidate, starting from
`("C", 0)`. -/
def detect_key (chords : List String) : String :=
  if chords = [] then "C"
  else
    let roots := chords.filterMap detectRoot
    (KEY_WEIGHTS.foldl
      (fun best kw =>
        let score := keyScore roots kw.2
        if score > best.2 then (kw.1, score) else best)
      ("C", 0)).1

/-- Embedding of `parse_chord_chart`: split into lines, run the line loop,
flush the last section, then fill in key (detected when not supplied) and
bpm (defaulted when falsy, i.e. zero). -/
def parse_chord_chart (raw_text : String) (title : String := "") (artist : String := "")
    (bpm : Int := 0) (key : String := "") (time_sig : String := "4/4") : SongChart :=
  let lines := splitOnChar '\n' raw_text.data
  let st := lines.foldl processLine ⟨[], none, []⟩
  let sections := flushSection st
  let all_chords := (sections.map Section.chords).flatten
  let key := if key = "" then detect_key all_chords else key
  { title := title, artist := artist, key := key,
    bpm := if bpm = 0 then 120 else bpm, time_sig := time_sig, sections := sections }

/-- The `KNOWN_QUALITIES` allow-list of the source. -/
def KNOWN_QUALITIES : List String :=
  ["", "m", "min", "maj", "dim", "aug", "sus2", "sus4",
   "7", "m7", "maj7", "min7", "dim7", "aug7",
   "9", "m9", "maj9", "11", "m11", "13", "m13",
   "6", "m6", "add9", "add11",
   "7b5", "7#5", "m7b5", "7b9", "7#9",
   "sus", "7sus4"]

/-- Python `chord.split("/")[0]` guarded by `if "/" in chord`: keep only the
part before the first slash. -/
def stripSlash (l : List Char) : List Char :=
  if '/' ∈ l then l.takeWhile (fun c => c != '/') else l

/-- Splitting off the root per `re.match(r'^([A-G][b#]?)(.*)', chord)`: the
root is the maximal `[A-G][b#]?` prefix; `none` when the first character is
not a note letter. -/
def rootSplit (t : List Char) : Option (List Char × List Char) :=
  match t with
  | r :: rest =>
    if isNoteLetter r then
      match rest with
      | a :: rr => if isAccidental a then some ([r, a], rr) else some ([r], rest)
      | [] => some ([r], [])
    else none
  | [] => none

/-- Core of `simplify_chord` after the slash strip.  The quality compared
against `KNOWN_QUALITIES` is the match of `(.*)`, which in Python stops at a
newline; when it is known the whole (slash-stripped) token is returned,
otherwise the bare root, and a token without a root is returned as is. -/
def simplifyCore (t : List Char) : List Char :=
  match rootSplit t with
  | some p =>
    let quality := p.2.takeWhile (fun c => c != '\n')
    if String.mk quality ∈ KNOWN_QUALITIES then t else p.1
  | none => t

/-- Embedding of `simplify_chord`. -/
def simplify_chord (c : String) : String :=
  String.mk (simplifyCore (stripSlash c.data))

/-- Reference definition of `simplify_chord` transcribed from the
specification's words: discard everything from the slash onward, split the
token into a root matching `[A-G][b#]?` and a quality being the remainder of
the string, return the slash-stripped token when the quality is in the
allow-list and the bare root otherwise; a token not matching the root
grammar is returned unchanged. -/
def simplify_chord_spec (c : String) : String :=
  let t := stripSlash c.data
  match rootSplit t with
  | some p =>
    if String.mk p.2 ∈ KNOWN_QUALITIES then String.mk t else String.mk p.1
  | none => String.mk t

/-- Embedding of `extract_bass_note`: `chord.split("/")[1]` when the token
contains a slash, `None` otherwise. -/
def extract_bass_note (c : String) : Option String :=
  if '/' ∈ c.data then
    match splitOnChar '/' c.data with
    | _ :: b :: _ => some (String.mk b)
    | _ => none
  else none

/-- Reference definition of `extract_bass_note` transcribed from the
specification's words: the substring after the (first) slash when the token
contains one, absence otherwise. -/
def extract_bass_note_spec (c : String) : Option String :=
  if '/' ∈ c.data then some (String.mk ((c.data.dropWhile (fun c => c != '/')).tail))
  else none

example : is_chord_token "Am" = true := by decide
example : is_chord_token "Dm7b5" = true := by decide
example : is_chord_token "Asus4" = true := by decide
example : is_chord_token "C/E" = true := by decide
example : is_chord_token "Gadd9#11b13" = false := by decide
example : is_chord_token "." = false := by decide
example : is_chord_token "hello" = false := by decide
example : normalizeSectionName "VERSE 1".data = "verse" := by decide
example : normalizeSectionName "Pre-Chorus".data = "pre-chorus" := by decide
example : detect_key ["Am", "G", "F", "E"] = "Am" := by decide
example : detect_key ["C", "G", "Am", "F"] = "C" := by decide
example : simplify_chord "Gadd9#11b13" = "G" := by decide
example : simplify_chord "Cmaj7" = "Cmaj7" := by decide
example : extract_bass_note "C/E" = some "E" := by decide

/-! Helper lemmas. -/

theorem mem_of_takeWhile {p : Char → Bool} {l : List Char} {x : Char}
    (h : x ∈ l.takeWhile p) : x ∈ l := by
  induction l with
  | nil => simp [List.takeWhile] at h
  | cons a l ih =>
    rw [List.takeWhile_cons] at h
    split at h
    · rcases List.mem_cons.mp h with h1 | h2
      · exact h1 ▸ List.mem_cons_self _ _
      · exact List.mem_cons_of_mem _ (ih h2)
    · simp at h

theorem takeWhile_all {p : Char → Bool} : ∀ l : List Char,
    (∀ x ∈ l, p x = true) → l.takeWhile p = l
  | [], _ => rfl
  | a :: l, h => by
    rw [List.takeWhile_cons, h a (List.mem_cons_self _ _)]
    simp [takeWhile_all l (fun x hx => h x (List.mem_cons_of_mem _ hx))]

theorem stripSlash_subset {x : Char} {l : List Char} (hx : x ∈ stripSlash l) : x ∈ l := by
  unfold stripSlash at hx
  split at hx
  · exact mem_of_takeWhile hx
  · exact hx

theorem rootSplit_some_subset {t : List Char} {p : List Char × List Char}
    (h : rootSplit t = some p) : ∀ x ∈ p.2, x ∈ t := by
  intro x hx
  cases t with
  | nil => simp [rootSplit] at h
  | cons r rest =>
    cases rest with
    | nil =>
      simp only [rootSplit] at h
      split at h
      · injection h with h
        subst h
        simp at hx
      · simp at h
    | cons a rr =>
      simp only [rootSplit] at h
      split at h
      · split at h
        · injection h with h
          subst h
          exact List.mem_cons_of_mem _ (List.mem_cons_of_mem _ hx)
        · injection h with h
          subst h
          exact List.mem_cons_of_mem _ hx
      · simp at h

theorem splitOnChar_takeWhile_head (sep : Char) (l : List Char) :
    ∃ t, splitOnChar sep l = l.takeWhile (fun c => c != sep) :: t := by
  induction l with
  | nil => exact ⟨[], rfl⟩
  | cons c l ih =>
    by_cases hc : c = sep
    · subst hc
      refine ⟨splitOnChar c l, ?_⟩
      simp [splitOnChar, List.takeWhile_cons]
    · obtain ⟨t, ht⟩ := ih
      refine ⟨t, ?_⟩
      simp only [splitOnChar, if_neg hc, ht, List.takeWhile_cons]
      simp [hc]

theorem splitOnChar_append_sep {a : List Char} (sep : Char) (rest : List Char)
    (ha : sep ∉ a) : splitOnChar sep (a ++ sep :: rest) = a :: splitOnChar sep rest := by
  induction a with
  | nil => simp [splitOnChar]
  | cons c a ih =>
    have hc : c ≠ sep := fun e => ha (e ▸ List.mem_cons_self _ _)
    have ih2 := ih (fun hm => ha (List.mem_cons_of_mem _ hm))
    simp only [List.cons_append, splitOnChar, if_neg hc, List.append_eq, ih2]

theorem pred_of_mem_takeWhile {p : Char → Bool} {l : List Char} {x : Char}
    (h : x ∈ l.takeWhile p) : p x = true := by
  induction l with
  | nil => simp [List.takeWhile] at h
  | cons a l ih =>
    rw [List.takeWhile_cons] at h
    split at h
    · rcases List.mem_cons.mp h with h1 | h2
      · exact h1 ▸ (by assumption)
      · exact ih h2
    · simp at h

theorem stripSlash_no_slash (l : List Char) : '/' ∉ stripSlash l := by
  unfold stripSlash
  split
  · intro hm
    have := pred_of_mem_takeWhile hm
    simp at this
  · assumption

theorem stripSlash_of_no_slash {l : List Char} (h : '/' ∉ l) : stripSlash l = l := by
  unfold stripSlash
  exact if_neg h

theorem rootSplit_some_shape {t : List Char} {p : List Char × List Char}
    (h : rootSplit t = some p) :
    (∃ r, p.1 = [r] ∧ isNoteLetter r = true) ∨
    (∃ r a, p.1 = [r, a] ∧ isNoteLetter r = true ∧ isAccidental a = true) := by
  cases t with
  | nil => simp [rootSplit] at h
  | cons r rest =>
    cases rest with
    | nil =>
      simp only [rootSplit] at h
      split at h
      · injection h with h
        subst h
        exact Or.inl ⟨r, rfl, by assumption⟩
      · simp at h
    | cons a rr =>
      simp only [rootSplit] at h
      split at h
      · split at h
        · injection h with h
          subst h
          exact Or.inr ⟨r, a, rfl, by assumption, by assumption⟩
        · injection h with h
          subst h
          exact Or.inl ⟨r, rfl, by assumption⟩
      · simp at h

theorem rootSplit_fst_no_slash {t : List Char} {p : List Char × List Char}
    (h : rootSplit t = some p) : '/' ∉ p.1 := by
  rcases rootSplit_some_shape h with ⟨r, e, hn⟩ | ⟨r, a, e, hn, ha⟩ <;> rw [e] <;> intro hm
  · have hr : '/' = r := by simpa using hm
    rw [← hr] at hn
    exact absurd hn (by decide)
  · rcases List.mem_cons.mp hm with h1 | h2
    · rw [← h1] at hn
      exact absurd hn (by decide)
    · have hr : '/' = a := by simpa using h2
      rw [← hr] at ha
      exact absurd ha (by decide)

theorem simplifyCore_no_slash {t : List Char} (h : '/' ∉ t) : '/' ∉ simplifyCore t := by
  unfold simplifyCore
  cases hr : rootSplit t with
  | none => exact h
  | some p =>
    simp only [hr]
    split
    · exact h
    · exact rootSplit_fst_no_slash hr

theorem simplifyCore_idem (t : List Char) :
    simplifyCore (simplifyCore t) = simplifyCore t := by
  cases hr : rootSplit t with
  | none =>
    have he : simplifyCore t = t := by simp [simplifyCore, hr]
    simp [he]
  | some p =>
    by_cases hk : String.mk (p.2.takeWhile (fun c => c != '\n')) ∈ KNOWN_QUALITIES
    · have he : simplifyCore t = t := by simp [simplifyCore, hr, hk]
      simp [he]
    · have he : simplifyCore t = p.1 := by simp [simplifyCore, hr, hk]
      rw [he]
      rcases rootSplit_some_shape hr with ⟨r, e, hn⟩ | ⟨r, a, e, hn, ha⟩
      · rw [e]
        have h1 : rootSplit [r] = some ([r], []) := by simp [rootSplit, hn]
        simp [simplifyCore, h1]
      · rw [e]
        have h2 : rootSplit [r, a] = some ([r, a], []) := by simp [rootSplit, hn, ha]
        simp [simplifyCore, h2]

theorem foldl_keyScore_zero (roots : List String) :
    ∀ (l : List (String × List String)) (b : String),
      (∀ kw ∈ l, keyScore roots kw.2 = 0) →
      (l.foldl (fun best kw =>
          let score := keyScore roots kw.2
          if score > best.2 then (kw.1, score) else best) (b, 0)) = (b, 0)
  | [], _, _ => rfl
  | kw :: l, b, h => by
    have h0 : keyScore roots kw.2 = 0 := h kw (List.mem_cons_self _ _)
    simp only [List.foldl_cons, h0]
    simpa using foldl_keyScore_zero roots l b (fun kw2 hm => h kw2 (List.mem_cons_of_mem _ hm))

theorem flushSection_some_pos {secs : List Section} {name : String} {chs : List String}
    (hc : name ≠ "" ∧ chs ≠ []) :
    flushSection ⟨secs, some name, chs⟩ = secs ++ [⟨name, chs, chs.length⟩] := by
  simp only [flushSection]
  exact if_pos hc

theorem flushSection_some_neg {secs : List Section} {name : String} {chs : List String}
    (hc : ¬(name ≠ "" ∧ chs ≠ [])) :
    flushSection ⟨secs, some name, chs⟩ = secs := by
  simp only [flushSection]
  exact if_neg hc

theorem flushSection_bars {secs : List Section} {cur : Option String} {chs : List String}
    (h : ∀ s ∈ secs, s.bars = s.chords.length ∧ s.chords ≠ []) :
    ∀ s ∈ flushSection ⟨secs, cur, chs⟩, s.bars = s.chords.length ∧ s.chords ≠ [] := by
  cases cur with
  | none => exact h
  | some name =>
    by_cases hc : name ≠ "" ∧ chs ≠ []
    · rw [flushSection_some_pos hc]
      intro s hs
      rcases List.mem_append.mp hs with hs | hs
      · exact h s hs
      · have he : s = ⟨name, chs, chs.length⟩ := by simpa using hs
        subst he
        exact ⟨rfl, hc.2⟩
    · rw [flushSection_some_neg hc]
      exact h

theorem processLine_bars {st : ParseState} (l : List Char)
    (h : ∀ s ∈ st.sections, s.bars = s.chords.length ∧ s.chords ≠ []) :
    ∀ s ∈ (processLine st l).sections, s.bars = s.chords.length ∧ s.chords ≠ [] := by
  simp only [processLine]
  split
  · exact h
  · split
    · intro s hs
      exact flushSection_bars h s hs
    · split
      · exact h
      · exact h

theorem foldl_processLine_bars :
    ∀ (lines : List (List Char)) (st : ParseState),
      (∀ s ∈ st.sections, s.bars = s.chords.length ∧ s.chords ≠ []) →
      ∀ s ∈ (lines.foldl processLine st).sections, s.bars = s.chords.length ∧ s.chords ≠ []
  | [], _, h => h
  | l :: ls, st, h =>
    foldl_processLine_bars ls (processLine st l) (processLine_bars l h)

theorem processTokens_valid :
    ∀ (ts : List String) (prev : Option String) (acc : List String),
      (∀ c ∈ acc, is_chord_token c = true) →
      (∀ p, prev = some p → is_chord_token p = true) →
      ∀ c ∈ (processTokens ts prev acc).1, is_chord_token c = true
  | [], _, _, hacc, _ => hacc
  | t :: ts, prev, acc, hacc, hprev => by
    by_cases hdot : t = "."
    · cases prev with
      | none =>
        simp only [processTokens, if_pos hdot]
        exact processTokens_valid ts none acc hacc hprev
      | some p =>
        by_cases hp : p = ""
        · simp only [processTokens, if_pos hdot, if_pos hp]
          exact processTokens_valid ts (some p) acc hacc hprev
        · simp only [processTokens, if_pos hdot, if_neg hp]
          refine processTokens_valid ts (some p) (acc ++ [p]) ?_ hprev
          intro c hc
          rcases List.mem_append.mp hc with hc | hc
          · exact hacc c hc
          · have he : c = p := by simpa using hc
            exact he ▸ hprev p rfl
    · by_cases hct : is_chord_token t = true
      · simp only [processTokens, if_neg hdot, if_pos hct]
        refine processTokens_valid ts (some t) (acc ++ [t]) ?_ ?_
        · intro c hc
          rcases List.mem_append.mp hc with hc | hc
          · exact hacc c hc
          · have he : c = t := by simpa using hc
            exact he ▸ hct
        · intro p hp
          injection hp with hp
          exact hp ▸ hct
      · simp only [processTokens, if_neg hdot, if_neg hct]
        exact processTokens_valid ts prev acc hacc hprev

theorem flushSection_valid {secs : List Section} {cur : Option String} {chs : List String}
    (h1 : ∀ s ∈ secs, ∀ c ∈ s.chords, is_chord_token c = true)
    (h2 : ∀ c ∈ chs, is_chord_token c = true) :
    ∀ s ∈ flushSection ⟨secs, cur, chs⟩, ∀ c ∈ s.chords, is_chord_token c = true := by
  cases cur with
  | none => exact h1
  | some name =>
    by_cases hc : name ≠ "" ∧ chs ≠ []
    · rw [flushSection_some_pos hc]
      intro s hs
      rcases List.mem_append.mp hs with hs | hs
      · exact h1 s hs
      · have he : s = ⟨name, chs, chs.length⟩ := by simpa using hs
        subst he
        exact h2
    · rw [flushSection_some_neg hc]
      exact h1

theorem processLine_valid {st : ParseState} (l : List Char)
    (h1 : ∀ s ∈ st.sections, ∀ c ∈ s.chords, is_chord_token c = true)
    (h2 : ∀ c ∈ st.chords, is_chord_token c = true) :
    (∀ s ∈ (processLine st l).sections, ∀ c ∈ s.chords, is_chord_token c = true)
    ∧ (∀ c ∈ (processLine st l).chords, is_chord_token c = true) := by
  simp only [processLine]
  split
  · exact ⟨h1, h2⟩
  · split
    · refine ⟨fun s hs => flushSection_valid h1 h2 s hs, fun c hc => ?_⟩
      simp at hc
    · split
      · exact ⟨h1, processTokens_valid _ none st.chords h2 (fun p hp => Option.noConfusion hp)⟩
      · exact ⟨h1, h2⟩

theorem foldl_processLine_valid :
    ∀ (lines : List (List Char)) (st : ParseState),
      (∀ s ∈ st.sections, ∀ c ∈ s.chords, is_chord_token c = true) →
      (∀ c ∈ st.chords, is_chord_token c = true) →
      (∀ s ∈ (lines.foldl processLine st).sections, ∀ c ∈ s.chords, is_chord_token c = true)
      ∧ (∀ c ∈ (lines.foldl processLine st).chords, is_chord_token c = true)
  | [], _, h1, h2 => ⟨h1, h2⟩
  | l :: ls, st, h1, h2 =>
    foldl_processLine_valid ls (processLine st l)
      (processLine_valid l h1 h2).1 (processLine_valid l h1 h2).2

/-! Claim theorems. -/

/-- C2: on the four-line example with explicit title, artist, bpm and key,
`parse_chord_chart` returns exactly a verse section with the dot-expanded
eight chords (bars 8), then a chorus with four chords (bars 4), key `"Am"`
and bpm 120. -/
theorem parse_chord_chart_example :
    parse_chord_chart "[Verse]\nAm . G .\nF . E .\n\n[Chorus]\nC G Am F"
        "Test Song" "Test Artist" 120 "Am" "4/4" =
      ⟨"Test Song", "Test Artist", "Am", 120, "4/4",
       [⟨"verse", ["Am", "Am", "G", "G", "F", "F", "E", "E"], 8⟩,
        ⟨"chorus", ["C", "G", "Am", "F"], 4⟩]⟩ := by
  decide

/-- C3: `detect_key ["Am","G","F","E"]` returns `"Am"`; the extended Am
candidate set scores 4 and every other candidate scores strictly less. -/
theorem detect_key_Am_example :
    detect_key ["Am", "G", "F", "E"] = "Am"
    ∧ keyScore (["Am", "G", "F", "E"].filterMap detectRoot)
        ["Am", "Bdim", "C", "Dm", "Em", "F", "G", "E"] = 4
    ∧ (KEY_WEIGHTS.all (fun kw =>
        kw.1 == "Am"
          || decide (keyScore (["Am", "G", "F", "E"].filterMap detectRoot) kw.2 < 4))) = true := by
  decide

/-- C1 (counterexample): the previous chord does not persist across lines of
a section — `prev_chord` is re-initialised per line, so for
`"[Verse]\nAm\n. . ."` the verse collects `["Am"]`, not `["Am","Am","Am","Am"]`. -/
theorem parse_prev_chord_across_lines_cex :
    (parse_chord_chart "[Verse]\nAm\n. . ." "" "" 0 "" "4/4").sections =
      [⟨"verse", ["Am"], 1⟩]
    ∧ (parse_chord_chart "[Verse]\nAm\n. . ." "" "" 0 "" "4/4").sections ≠
      [⟨"verse", ["Am", "Am", "Am", "Am"], 4⟩] := by
  decide

/-- C1 (amended): the previous chord used to expand repeat markers persists
only within a single line — after a chord token, following `"."` tokens on
the same line re-append it, while a line of `"."` tokens following the chord
on a previous line appends nothing. -/
theorem parse_prev_chord_line_scope :
    (∀ (c : String) (p : Option String) (acc : List String),
        is_chord_token c = true →
        processTokens [c, ".", "."] p acc = (acc ++ [c, c, c], some c))
    ∧ (parse_chord_chart "[Verse]\nAm\n. . ." "" "" 0 "" "4/4").sections =
      [⟨"verse", ["Am"], 1⟩] := by
  constructor
  · intro c p acc h
    have hdot : c ≠ "." := by
      intro e
      rw [e] at h
      simp [is_chord_token] at h
    have hemp : c ≠ "" := by
      intro e
      rw [e] at h
      simp [is_chord_token] at h
    simp [processTokens, hdot, hemp, h]
  · decide

/-- Witness for the amended C1 statement at a concrete chord. -/
theorem parse_prev_chord_line_scope_witness :
    processTokens ["Am", ".", "."] none [] = (["Am", "Am", "Am"], some "Am") :=
  parse_prev_chord_line_scope.1 "Am" none [] (by decide)

/-- C4 (counterexample): for a token containing a newline the code differs
from the spec's reference definition, because the quality captured by `(.*)`
stops at the newline: `simplify_chord "C\nx"` keeps the whole token while
the reference definition reduces it to the root. -/
theorem simplify_chord_spec_cex :
    simplify_chord "C\nx" = "C\nx"
    ∧ simplify_chord_spec "C\nx" = "C"
    ∧ simplify_chord "C\nx" ≠ simplify_chord_spec "C\nx" := by
  decide

/-- C4 (amended): on every token without a newline, `simplify_chord` agrees
with the spec's reference definition (slash stripped first, known qualities
kept verbatim, unknown qualities reduced to the bare root, non-chord tokens
unchanged); in particular `simplify_chord "Gadd9#11b13" = "G"`. -/
theorem simplify_chord_matches_spec :
    (∀ c : String, '\n' ∉ c.data → simplify_chord c = simplify_chord_spec c)
    ∧ simplify_chord "Gadd9#11b13" = "G" := by
  refine ⟨?_, by decide⟩
  intro c hnl
  unfold simplify_chord simplify_chord_spec simplifyCore
  cases hr : rootSplit (stripSlash c.data) with
  | none => simp [hr]
  | some p =>
    have hq : p.2.takeWhile (fun c => c != '\n') = p.2 := by
      refine takeWhile_all _ (fun x hx => ?_)
      have hxc : x ∈ c.data := stripSlash_subset (rootSplit_some_subset hr x hx)
      have hxn : x ≠ '\n' := fun e => hnl (e ▸ hxc)
      simpa using hxn
    simp only [hr, hq]
    by_cases hk : String.mk p.2 ∈ KNOWN_QUALITIES <;> simp [hk]

/-- Witness for the amended C4 statement at a concrete chord. -/
theorem simplify_chord_matches_spec_witness :
    simplify_chord "Dm7" = simplify_chord_spec "Dm7" :=
  simplify_chord_matches_spec.1 "Dm7" (by decide)

/-- C6: `detect_key` returns `"C"` on the empty list, and also whenever every
candidate key scores 0 against the reduced roots of the input, since the
initial best value `("C", 0)` is never replaced. -/
theorem detect_key_default_C :
    detect_key [] = "C"
    ∧ (∀ chords : List String,
        (KEY_WEIGHTS.all fun kw =>
          keyScore (chords.filterMap detectRoot) kw.2 == 0) = true →
        detect_key chords = "C") := by
  refine ⟨rfl, fun chords h => ?_⟩
  have h2 : ∀ kw ∈ KEY_WEIGHTS, keyScore (chords.filterMap detectRoot) kw.2 = 0 := by
    intro kw hm
    have hb := List.all_eq_true.mp h kw hm
    simpa using hb
  unfold detect_key
  split
  · rfl
  · exact congrArg Prod.fst (foldl_keyScore_zero (chords.filterMap detectRoot) KEY_WEIGHTS "C" h2)

/-- Witness for C6 at a concrete input with no scoring candidate. -/
theorem detect_key_default_C_witness : detect_key ["H"] = "C" :=
  detect_key_default_C.2 ["H"] (by decide)

/-- C7: `parse_chord_chart` is a total function of its inputs (it is defined
for every string, with no exceptional exit in the embedding); on the empty
string with no explicit key and bpm 0 it returns the empty-sections chart
with detected key `"C"` and default bpm 120, and in general a falsy (zero)
bpm is replaced by 120 while any other bpm is kept. -/
theorem parse_chord_chart_total_defaults :
    (∀ title artist ts : String,
      parse_chord_chart "" title artist 0 "" ts = ⟨title, artist, "C", 120, ts, []⟩)
    ∧ (∀ (raw title artist : String) (bpm : Int) (key ts : String),
        (parse_chord_chart raw title artist bpm key ts).bpm =
          if bpm = 0 then 120 else bpm) := by
  exact ⟨fun _ _ _ => rfl, fun _ _ _ _ _ _ => rfl⟩

/-- C8 (counterexample): `extract_bass_note` takes `split("/")[1]`, the
segment between the first and second slash, not everything after the first
slash: on `"C/E/G"` it returns `"E"` while the spec's reference definition
returns `"E/G"`. -/
theorem extract_bass_note_spec_cex :
    extract_bass_note "C/E/G" = some "E"
    ∧ extract_bass_note_spec "C/E/G" = some "E/G"
    ∧ extract_bass_note "C/E/G" ≠ extract_bass_note_spec "C/E/G" := by
  decide

/-- C8 (amended): `extract_bass_note` returns `none` exactly when the token
has no slash, and on a token of shape `a ++ "/" ++ rest` (with no slash in
`a`) it returns the part of `rest` before the next slash — for a token with
a single slash this is everything after the slash; in particular
`extract_bass_note "C/E" = some "E"` and `extract_bass_note "Am" = none`. -/
theorem extract_bass_note_after_first_slash :
    (∀ c : String, '/' ∉ c.data → extract_bass_note c = none)
    ∧ (∀ a rest : List Char, '/' ∉ a →
        extract_bass_note (String.mk (a ++ '/' :: rest)) =
          some (String.mk (rest.takeWhile (fun c => c != '/'))))
    ∧ extract_bass_note "C/E" = some "E"
    ∧ extract_bass_note "Am" = none := by
  refine ⟨?_, ?_, by decide, by decide⟩
  · intro c h
    simp [extract_bass_note, h]
  · intro a rest ha
    have hd : (String.mk (a ++ '/' :: rest)).data = a ++ '/' :: rest := rfl
    have hmem : '/' ∈ (String.mk (a ++ '/' :: rest)).data := by
      rw [hd]
      exact List.mem_append_right _ (List.mem_cons_self _ _)
    obtain ⟨t, ht⟩ := splitOnChar_takeWhile_head '/' rest
    rw [extract_bass_note, if_pos hmem, hd, splitOnChar_append_sep '/' rest ha, ht]

/-- Witness for the amended C8 statement at a concrete slash chord. -/
theorem extract_bass_note_after_first_slash_witness :
    extract_bass_note (String.mk ("C".data ++ '/' :: "E/G".data)) =
      some (String.mk ("E/G".data.takeWhile (fun c => c != '/'))) :=
  extract_bass_note_after_first_slash.2.1 "C".data "E/G".data (by decide)

/-- C10: `simplify_chord` is idempotent on every input string: its output is
either a slash-free token with a known quality, a bare root (whose empty
quality is in the allow-list), or an unchanged token that fails the root
grammar — and each of these is a fixed point. -/
theorem simplify_chord_idem (c : String) :
    simplify_chord (simplify_chord c) = simplify_chord c := by
  unfold simplify_chord
  have hd : (String.mk (simplifyCore (stripSlash c.data))).data
      = simplifyCore (stripSlash c.data) := rfl
  rw [hd]
  have hns : '/' ∉ simplifyCore (stripSlash c.data) :=
    simplifyCore_no_slash (stripSlash_no_slash c.data)
  rw [stripSlash_of_no_slash hns, simplifyCore_idem (stripSlash c.data)]

/-- C5: every section of every chart returned by `parse_chord_chart` has
`bars` equal to the length of its chord list, and a non-empty chord list —
sections that accumulated zero chords are never emitted. -/
theorem parse_sections_bars (raw title artist : String) (bpm : Int) (key ts : String) :
    ∀ sec ∈ (parse_chord_chart raw title artist bpm key ts).sections,
      sec.bars = sec.chords.length ∧ sec.chords ≠ [] := by
  intro sec hs
  have h0 : ∀ s ∈ ([] : List Section), s.bars = s.chords.length ∧ s.chords ≠ [] :=
    fun s hsm => absurd hsm (List.not_mem_nil s)
  exact flushSection_bars
    (foldl_processLine_bars (splitOnChar '\n' raw.data) ⟨[], none, []⟩ h0) sec hs

/-- Witness for C5 on a one-section chart. -/
theorem parse_sections_bars_witness :
    (⟨"verse", ["Am"], 1⟩ : Section).bars = (⟨"verse", ["Am"], 1⟩ : Section).chords.length
    ∧ (⟨"verse", ["Am"], 1⟩ : Section).chords ≠ [] :=
  parse_sections_bars "[Verse]\nAm" "" "" 0 "" "4/4" ⟨"verse", ["Am"], 1⟩ (by decide)

/-- C9: every chord token in every section of a chart returned by
`parse_chord_chart` matches the chord grammar `CHORD_RE`, and is in
particular neither the repeat marker `"."` nor the empty string: only tokens
accepted by `_is_chord_token` are appended, and repeat markers only
duplicate a previously accepted chord. -/
theorem parse_sections_chords_valid (raw title artist : String) (bpm : Int) (key ts : String) :
    ∀ sec ∈ (parse_chord_chart raw title artist bpm key ts).sections,
      ∀ c ∈ sec.chords, chordMatchL c.data = true ∧ c ≠ "." ∧ c ≠ "" := by
  intro sec hs c hc
  have h0a : ∀ s ∈ ([] : List Section), ∀ c ∈ s.chords, is_chord_token c = true :=
    fun s hsm => absurd hsm (List.not_mem_nil s)
  have h0b : ∀ c ∈ ([] : List String), is_chord_token c = true :=
    fun c hcm => absurd hcm (List.not_mem_nil c)
  have hfold := foldl_processLine_valid (splitOnChar '\n' raw.data) ⟨[], none, []⟩ h0a h0b
  have hct : is_chord_token c = true :=
    flushSection_valid hfold.1 hfold.2 sec hs c hc
  have h1 : c ≠ "" := by
    intro e
    rw [e] at hct
    simp [is_chord_token] at hct
  have h2 : c ≠ "." := by
    intro e
    rw [e] at hct
    simp [is_chord_token] at hct
  have h3 : chordMatchL c.data = true := by
    simp [is_chord_token, h1, h2] at hct
    exact hct
  exact ⟨h3, h2, h1⟩

/-- Witness for C9 on a one-section chart. -/
theorem parse_sections_chords_valid_witness :
    chordMatchL "Am".data = true ∧ ("Am" : String) ≠ "." ∧ ("Am" : String) ≠ "" :=
  parse_sections_chords_valid "[Verse]\nAm" "" "" 0 "" "4/4"
    ⟨"verse", ["Am"], 1⟩ (by decide) "Am" (by decide)

end SongLookup
